import Mathlib

/-!
Verification of the land/water bitmap generator (src/generate_bitmap.py).

The pipeline: load land polygons, merge them, rasterize a boolean grid by
9-point sub-sampling, validate known coordinates, then bitpack, RLE-encode
and base64-encode the grid. Latitudes, longitudes and resolutions are
modelled as exact rationals; bytes as natural numbers below 256; the merged
geometry as an abstract containment predicate on (lng, lat).
-/

set_option maxRecDepth 4000

/-! ### Rasterizer (src/generate_bitmap.py, generate_grid, lines 46-61) -/

/-- Sub-grid positions within a cell, from line 46:
`offsets = [0.17, 0.5, 0.83]`. -/
def offsets : List ℚ := [17/100, 1/2, 83/100]

/-- Inner loop over x-offsets (lines 55-59): returns true and stops at the
first sub-sample point contained in the geometry. -/
def rowContains (contains : ℚ → ℚ → Bool) (lat : ℚ) (col : ℕ) (res : ℚ) :
    List ℚ → Bool
  | [] => false
  | xo :: rest =>
    if contains (-180 + ((col : ℚ) + xo) * res) lat then true
    else rowContains contains lat col res rest

/-- Outer loop over y-offsets (lines 51-59): once `is_land` is set the
outer loop breaks, so later offsets are not scanned. -/
def cellScan (contains : ℚ → ℚ → Bool) (row col : ℕ) (res : ℚ) :
    List ℚ → Bool
  | [] => false
  | yo :: rest =>
    if rowContains contains (90 - ((row : ℚ) + yo) * res) col res offsets then
      true
    else cellScan contains row col res rest

/-- Value of one grid cell: the 3x3 sub-sample test of lines 50-59. -/
def cellLand (contains : ℚ → ℚ → Bool) (row col : ℕ) (res : ℚ) : Bool :=
  cellScan contains row col res offsets

/-- The rasterizer loop of lines 48-61: `grid[row, col] = 1` exactly when
some sub-sample point of the cell is contained in the merged geometry. -/
def generate_grid (contains : ℚ → ℚ → Bool) (rows cols : ℕ) (res : ℚ) :
    List (List Bool) :=
  (List.range rows).map (fun row =>
    (List.range cols).map (fun col => cellLand contains row col res))

/-- Default arguments of `generate_grid` (line 23):
`def generate_grid(rows=720, cols=1440, res=0.25)`. -/
def generate_grid_defaults : ℕ × ℕ × ℚ := (720, 1440, 1/4)

/-- Default argument of `validate_grid` (line 77): `res=0.25`. -/
def validate_grid_default_res : ℚ := 1/4

/-- Parameters that `main` passes explicitly (line 141):
`rows, cols, res = 1800, 3600, 0.1`. -/
def main_params : ℕ × ℕ × ℚ := (1800, 3600, 1/10)

/-! ### Geometry loader (lines 29-34) -/

/-- Line 30: `world[world.geometry.notnull()].geometry.tolist()` keeps the
non-null geometries. There is no emptiness check and no error raised in
lines 29-34. -/
def load_land_geoms {G : Type} (world : List (Option G)) : List G :=
  world.filterMap id

/-- Containment in the merged geometry of lines 33-34: a point lies in
`unary_union(geoms)` exactly when some member geometry contains it. -/
def union_contains {G : Type} (containsG : G → ℚ → ℚ → Bool)
    (geoms : List G) (lng lat : ℚ) : Bool :=
  geoms.any (fun g => containsG g lng lat)

/-- The loader and rasterizer composed, as `generate_grid` runs them:
filter nulls, merge, rasterize. -/
def grid_from_world {G : Type} (containsG : G → ℚ → ℚ → Bool)
    (world : List (Option G)) (rows cols : ℕ) (res : ℚ) : List (List Bool) :=
  generate_grid (union_contains containsG (load_land_geoms world)) rows cols res

/-! ### Validator (validate_grid.check, lines 79-87) -/

namespace validate_grid

/-- Python's `int()` applied to a quotient (lines 80-81) truncates toward
zero. -/
def round_to_grid (q : ℚ) : ℤ :=
  if q < 0 then ⌈q⌉ else ⌊q⌋

/-- Row index after the clamp of line 82: `max(0, min(rows - 1, row))`. -/
def clampedRow (rows : ℕ) (res lat : ℚ) : ℤ :=
  max 0 (min ((rows : ℤ) - 1) (round_to_grid ((90 - lat) / res)))

/-- Column index after the clamp of line 83: `max(0, min(cols - 1, col))`. -/
def clampedCol (cols : ℕ) (res lng : ℚ) : ℤ :=
  max 0 (min ((cols : ℤ) - 1) (round_to_grid ((lng + 180) / res)))

/-- One validation check (lines 79-87): compute the truncated indices,
clamp them into range, and compare the grid cell with the expectation. -/
def check (grid : ℕ → ℕ → Bool) (rows cols : ℕ) (res lat lng : ℚ)
    (expected : Bool) : Bool :=
  grid (clampedRow rows res lat).toNat (clampedCol cols res lng).toNat
    == expected

end validate_grid

/-! ### Encoder chain (bitpack lines 109-122, rle_encode lines 125-137) -/

/-- One packed byte: the loop of lines 119-120 OR-s bit `bit` of the byte
in at position `7 - bit`, so byte `j` collects `padded[8*j+bit]` for
`bit = 0..7`, MSB first. -/
def byteFold (g : ℕ → Bool) : ℕ :=
  (List.range 8).foldl
    (fun acc bit => acc ||| ((if g bit then 1 else 0) <<< (7 - bit))) 0

/-- The zero-padded flat cell sequence of lines 113-115: pad with `false`
up to the next multiple of 8. -/
def paddedOf (flat : List Bool) : List Bool :=
  flat ++ List.replicate ((flat.length + 7) / 8 * 8 - flat.length) false

/-- Bit-packing of the flat cell sequence (lines 113-120): byte `j` holds
cells `8*j .. 8*j+7` of the padded sequence, MSB first. -/
def bitpackFlat (flat : List Bool) : List ℕ :=
  (List.range ((flat.length + 7) / 8 * 8 / 8)).map
    (fun j => byteFold (fun bit => (paddedOf flat).getD (8 * j + bit) false))

/-- `bitpack` (lines 109-122): flatten the grid row-major (line 111) and
pack 8 cells per byte. -/
def bitpack (grid : List (List Bool)) : List ℕ :=
  bitpackFlat grid.flatten

/-- Modelled from the spec: the inverse `unpack` is not part of
src/generate_bitmap.py; the spec requires reading the bits of each byte in
order, most significant first, one boolean per bit. -/
def unpack (bytes : List ℕ) : List Bool :=
  bytes.flatMap (fun b => (List.range 8).map (fun k => b.testBit (7 - k)))

/-- Length of the run of bytes equal to `value` at the head of the list,
counted up to `cap` elements: the guard of line 132
`data[i + count] == value and count < 255` with `cap = 254` remaining
extensions. -/
def runLen (value : ℕ) : List ℕ → ℕ → ℕ
  | [], _ => 0
  | _ :: _, 0 => 0
  | x :: rest, cap + 1 =>
    if x = value then 1 + runLen value rest cap else 0

/-- `rle_encode` (lines 125-137): emit `(value, count)` byte pairs, count
capped at 255, then continue after the run. -/
def rle_encode : List ℕ → List ℕ
  | [] => []
  | value :: rest =>
    let count := 1 + runLen value rest 254
    value :: count :: rle_encode (rest.drop (count - 1))
termination_by l => l.length
decreasing_by
  simp only [List.length_drop, List.length_cons]
  omega

/-- Modelled from the spec: the inverse `rle_decode` is not part of
src/generate_bitmap.py; each `(value, count)` pair expands to `count`
copies of `value`, in order. -/
def rle_decode : List ℕ → List ℕ
  | value :: count :: rest => List.replicate count value ++ rle_decode rest
  | _ => []

/-- The count bytes of an RLE stream: every second byte. -/
def rleCounts : List ℕ → List ℕ
  | _ :: count :: rest => count :: rleCounts rest
  | _ => []

/-! ### Base64 (line 155) -/

/-- Modelled from the spec: `base64.b64encode` is a library call; the spec
fixes standard RFC 4648 base64 with the `+`/`/` alphabet and `=` padding.
The alphabet table. -/
def b64Chars : List Char :=
  ['A','B','C','D','E','F','G','H','I','J','K','L','M','N','O','P',
   'Q','R','S','T','U','V','W','X','Y','Z',
   'a','b','c','d','e','f','g','h','i','j','k','l','m','n','o','p',
   'q','r','s','t','u','v','w','x','y','z',
   '0','1','2','3','4','5','6','7','8','9','+','/']

/-- Modelled from the spec: encode one 6-bit group. -/
def b64Char (n : ℕ) : Char := b64Chars.getD n '?'

/-- Modelled from the spec: RFC 4648 base64 over byte triples, with `=`
padding for a final group of one or two bytes. -/
def b64EncodeChars : List ℕ → List Char
  | [] => []
  | [b1] => [b64Char (b1 / 4), b64Char (b1 % 4 * 16), '=', '=']
  | [b1, b2] =>
    [b64Char (b1 / 4), b64Char (b1 % 4 * 16 + b2 / 16),
     b64Char (b2 % 16 * 4), '=']
  | b1 :: b2 :: b3 :: rest =>
    b64Char (b1 / 4) :: b64Char (b1 % 4 * 16 + b2 / 16) ::
    b64Char (b2 % 16 * 4 + b3 / 64) :: b64Char (b3 % 64) ::
    b64EncodeChars rest

/-- Modelled from the spec: standard base64 encoding as a string. -/
def base64Encode (bytes : List ℕ) : String :=
  String.mk (b64EncodeChars bytes)

/-! ### Rasterizer lemmas -/

lemma getD_range_map {α : Type} (f : ℕ → α) (d : α) (n i : ℕ) (h : i < n) :
    ((List.range n).map f).getD i d = f i := by
  simp [List.getD_eq_getElem?_getD, List.getElem?_map, List.getElem?_range, h]

lemma rowContains_iff (contains : ℚ → ℚ → Bool) (lat : ℚ) (col : ℕ)
    (res : ℚ) (l : List ℚ) :
    rowContains contains lat col res l = true ↔
      ∃ xo ∈ l, contains (-180 + ((col : ℚ) + xo) * res) lat = true := by
  induction l with
  | nil => simp [rowContains]
  | cons x rest ih =>
    simp only [rowContains]
    by_cases h : contains (-180 + ((col : ℚ) + x) * res) lat = true
    · rw [if_pos h]
      exact iff_of_true rfl ⟨x, List.mem_cons_self x rest, h⟩
    · rw [if_neg h, ih]
      constructor
      · rintro ⟨xo, hxo, hc⟩
        exact ⟨xo, List.mem_cons_of_mem x hxo, hc⟩
      · rintro ⟨xo, hxo, hc⟩
        rcases List.mem_cons.1 hxo with h1 | h1
        · subst h1
          exact absurd hc h
        · exact ⟨xo, h1, hc⟩

lemma cellScan_iff (contains : ℚ → ℚ → Bool) (row col : ℕ) (res : ℚ)
    (l : List ℚ) :
    cellScan contains row col res l = true ↔
      ∃ yo ∈ l,
        rowContains contains (90 - ((row : ℚ) + yo) * res) col res offsets
          = true := by
  induction l with
  | nil => simp [cellScan]
  | cons y rest ih =>
    simp only [cellScan]
    by_cases h :
        rowContains contains (90 - ((row : ℚ) + y) * res) col res offsets
          = true
    · rw [if_pos h]
      exact iff_of_true rfl ⟨y, List.mem_cons_self y rest, h⟩
    · rw [if_neg h, ih]
      constructor
      · rintro ⟨yo, hyo, hc⟩
        exact ⟨yo, List.mem_cons_of_mem y hyo, hc⟩
      · rintro ⟨yo, hyo, hc⟩
        rcases List.mem_cons.1 hyo with h1 | h1
        · subst h1
          exact absurd hc h
        · exact ⟨yo, h1, hc⟩

lemma cellLand_iff (contains : ℚ → ℚ → Bool) (row col : ℕ) (res : ℚ) :
    cellLand contains row col res = true ↔
      ∃ yo ∈ offsets, ∃ xo ∈ offsets,
        contains (-180 + ((col : ℚ) + xo) * res)
          (90 - ((row : ℚ) + yo) * res) = true := by
  unfold cellLand
  rw [cellScan_iff]
  constructor
  · rintro ⟨yo, hyo, hrow⟩
    rcases (rowContains_iff _ _ _ _ _).1 hrow with ⟨xo, hxo, hc⟩
    exact ⟨yo, hyo, xo, hxo, hc⟩
  · rintro ⟨yo, hyo, xo, hxo, hc⟩
    exact ⟨yo, hyo, (rowContains_iff _ _ _ _ _).2 ⟨xo, hxo, hc⟩⟩

lemma generate_grid_cell (contains : ℚ → ℚ → Bool) (rows cols : ℕ)
    (res : ℚ) (row col : ℕ) (hr : row < rows) (hc : col < cols) :
    ((generate_grid contains rows cols res).getD row []).getD col false =
      cellLand contains row col res := by
  unfold generate_grid
  rw [getD_range_map _ _ _ _ hr, getD_range_map _ _ _ _ hc]

/-- A containment predicate that holds only at the last sub-sample point
of cell (0, 0) at resolution 1, i.e. at offsets (0.83, 0.83). -/
def lastPointOnly (lng lat : ℚ) : Bool :=
  decide (lng = -180 + 83/100 ∧ lat = 90 - 83/100)

/-- C1: a cell of the generated grid is land exactly when one of the nine
sub-sample points, at fractional offsets 0.17, 0.5, 0.83 in both axes with
lat = 90 - (row + yo) * res and lng = -180 + (col + xo) * res, is contained
in the merged geometry; and a cell whose only contained sub-sample point is
the last tested one (yo = 0.83, xo = 0.83) is still marked land. -/
theorem generate_grid_subsample_iff :
    (∀ (contains : ℚ → ℚ → Bool) (rows cols : ℕ) (res : ℚ) (row col : ℕ),
      row < rows → col < cols →
      (((generate_grid contains rows cols res).getD row []).getD col false
          = true ↔
        ∃ yo ∈ offsets, ∃ xo ∈ offsets,
          contains (-180 + ((col : ℚ) + xo) * res)
            (90 - ((row : ℚ) + yo) * res) = true))
    ∧ cellLand lastPointOnly 0 0 1 = true := by
  constructor
  · intro contains rows cols res row col hr hc
    rw [generate_grid_cell contains rows cols res row col hr hc]
    exact cellLand_iff contains row col res
  · rw [cellLand_iff]
    refine ⟨83/100, by norm_num [offsets], 83/100, by norm_num [offsets], ?_⟩
    simp only [lastPointOnly, decide_eq_true_eq]
    norm_num

/-- Witness for C1: instantiate at a concrete geometry, grid size and
cell, discharging both bound hypotheses. -/
theorem generate_grid_subsample_iff_witness :
    ((generate_grid (fun _ _ => true) 1 1 1).getD 0 []).getD 0 false
        = true ↔
      ∃ yo ∈ offsets, ∃ xo ∈ offsets,
        (fun (_ : ℚ) (_ : ℚ) => true)
          (-180 + ((0 : ℚ) + xo) * 1) (90 - ((0 : ℚ) + yo) * 1) = true :=
  generate_grid_subsample_iff.1 (fun _ _ => true) 1 1 1 0 0
    (by decide) (by decide)

/-! ### Bitpack lemmas -/

lemma byteFold_ext (g g' : ℕ → Bool) (h : ∀ i < 8, g i = g' i) :
    byteFold g = byteFold g' := by
  unfold byteFold
  apply List.foldl_ext
  intro b bit hbit
  rw [h bit (List.mem_range.1 hbit)]

lemma byteFold_testBit_fin :
    ∀ (c : Fin 8 → Bool) (k : Fin 8),
      (byteFold (fun i => if h : i < 8 then c ⟨i, h⟩ else false)).testBit
        (7 - (k : ℕ)) = c k := by decide

lemma byteFold_testBit (g : ℕ → Bool) (k : ℕ) (hk : k < 8) :
    (byteFold g).testBit (7 - k) = g k := by
  have h1 := byteFold_testBit_fin (fun i => g i) ⟨k, hk⟩
  have h2 : byteFold (fun i => if h : i < 8 then g i else false) = byteFold g :=
    byteFold_ext _ _ (fun i hi => by simp [hi])
  rw [h2] at h1
  exact h1

lemma paddedOf_length (flat : List Bool) :
    (paddedOf flat).length = (flat.length + 7) / 8 * 8 := by
  simp only [paddedOf, List.length_append, List.length_replicate]
  omega

lemma paddedOf_getD_lt (flat : List Bool) (i : ℕ) (hi : i < flat.length) :
    (paddedOf flat).getD i false = flat.getD i false := by
  unfold paddedOf
  rw [List.getD_append _ _ _ _ hi]

lemma paddedOf_getD_ge (flat : List Bool) (i : ℕ) (hi : flat.length ≤ i) :
    (paddedOf flat).getD i false = false := by
  unfold paddedOf
  simp only [List.getD_eq_getElem?_getD, List.getElem?_append_right hi,
    List.getElem?_replicate]
  split
  · rfl
  · rfl

lemma bitpackFlat_length (flat : List Bool) :
    (bitpackFlat flat).length = (flat.length + 7) / 8 := by
  simp only [bitpackFlat, List.length_map, List.length_range]
  omega

lemma bitpackFlat_getD (flat : List Bool) (j : ℕ)
    (hj : j < (flat.length + 7) / 8) :
    (bitpackFlat flat).getD j 0 =
      byteFold (fun bit => (paddedOf flat).getD (8 * j + bit) false) := by
  unfold bitpackFlat
  exact getD_range_map _ _ _ _ (by omega)

lemma bitpackFlat_testBit (flat : List Bool) (i : ℕ)
    (hi : i < 8 * ((flat.length + 7) / 8)) :
    ((bitpackFlat flat).getD (i / 8) 0).testBit (7 - i % 8) =
      (paddedOf flat).getD i false := by
  rw [bitpackFlat_getD flat (i / 8) (by omega)]
  rw [byteFold_testBit _ (i % 8) (by omega)]
  congr 1
  omega

/-- C2: bitpack maps a grid of rows times cols cells to ceil(n/8) bytes,
cell i (row-major) lands at bit 7 - (i mod 8) of byte i / 8, and every
padding bit beyond the last cell is 0. -/
theorem bitpack_spec (g : List (List Bool)) :
    (bitpack g).length = (g.flatten.length + 7) / 8 ∧
    (∀ i, i < g.flatten.length →
      ((bitpack g).getD (i / 8) 0).testBit (7 - i % 8) =
        g.flatten.getD i false) ∧
    (∀ i, g.flatten.length ≤ i → i < 8 * (bitpack g).length →
      ((bitpack g).getD (i / 8) 0).testBit (7 - i % 8) = false) := by
  unfold bitpack
  refine ⟨bitpackFlat_length g.flatten, ?_, ?_⟩
  · intro i hi
    rw [bitpackFlat_testBit g.flatten i (by omega)]
    exact paddedOf_getD_lt g.flatten i hi
  · intro i hi1 hi2
    rw [bitpackFlat_length] at hi2
    rw [bitpackFlat_testBit g.flatten i hi2]
    exact paddedOf_getD_ge g.flatten i hi1

/-- Witness for C2: the data bits and the padding bits of a concrete
3-cell grid. -/
theorem bitpack_spec_witness :
    (((bitpack [[true, false, true]]).getD (2 / 8) 0).testBit (7 - 2 % 8) =
      ([[true, false, true]] : List (List Bool)).flatten.getD 2 false) ∧
    (((bitpack [[true, false, true]]).getD (5 / 8) 0).testBit (7 - 5 % 8) =
      false) :=
  ⟨(bitpack_spec [[true, false, true]]).2.1 2 (by decide),
   (bitpack_spec [[true, false, true]]).2.2 5 (by decide) (by decide)⟩

/-! ### Unpack lemmas -/

lemma flatMap_getD_eight (f : ℕ → List Bool) (hf : ∀ x, (f x).length = 8)
    (l : List ℕ) (i : ℕ) (hi : i < 8 * l.length) :
    (l.flatMap f).getD i false = (f (l.getD (i / 8) 0)).getD (i % 8) false := by
  induction l generalizing i with
  | nil => simp at hi
  | cons a l ih =>
    rw [List.flatMap_cons]
    by_cases h : i < 8
    · rw [List.getD_append _ _ _ _ (by rw [hf]; exact h)]
      rw [show i / 8 = 0 from by omega, show i % 8 = i from by omega,
        List.getD_cons_zero]
    · rw [List.getD_append_right _ _ _ _ (by rw [hf]; omega), hf a]
      rw [show i / 8 = (i - 8) / 8 + 1 from by omega, List.getD_cons_succ,
        show i % 8 = (i - 8) % 8 from by omega]
      refine ih (i - 8) ?_
      simp only [List.length_cons] at hi
      omega

lemma unpack_getD (bytes : List ℕ) (i : ℕ) (hi : i < 8 * bytes.length) :
    (unpack bytes).getD i false =
      (bytes.getD (i / 8) 0).testBit (7 - i % 8) := by
  unfold unpack
  rw [flatMap_getD_eight _ (fun x => by simp) bytes i hi]
  exact getD_range_map _ _ _ _ (by omega)

/-- C6: unpacking the bitpacked grid, reading the bits of each byte MSB
first, reproduces every cell within the original unpadded length. -/
theorem unpack_bitpack (g : List (List Bool)) (i : ℕ)
    (hi : i < g.flatten.length) :
    (unpack (bitpack g)).getD i false = g.flatten.getD i false := by
  unfold bitpack
  rw [unpack_getD _ i (by rw [bitpackFlat_length]; omega)]
  rw [bitpackFlat_testBit g.flatten i (by omega)]
  exact paddedOf_getD_lt g.flatten i hi

/-- Witness for C6: the round trip at cell 1 of a concrete 3-cell grid. -/
theorem unpack_bitpack_witness :
    (unpack (bitpack [[true, false, true]])).getD 1 false =
      ([[true, false, true]] : List (List Bool)).flatten.getD 1 false :=
  unpack_bitpack [[true, false, true]] 1 (by decide)

/-! ### RLE lemmas -/

lemma rle_encode_cons (value : ℕ) (rest : List ℕ) :
    rle_encode (value :: rest) =
      value :: (1 + runLen value rest 254) ::
        rle_encode (rest.drop (runLen value rest 254)) := by
  rw [rle_encode, Nat.add_sub_cancel_left]

lemma runLen_le_cap (value : ℕ) (l : List ℕ) (cap : ℕ) :
    runLen value l cap ≤ cap := by
  induction l generalizing cap with
  | nil => simp [runLen]
  | cons x rest ih =>
    cases cap with
    | zero => simp [runLen]
    | succ c =>
      simp only [runLen]
      split
      · have := ih c
        omega
      · omega

lemma runLen_le_length (value : ℕ) (l : List ℕ) (cap : ℕ) :
    runLen value l cap ≤ l.length := by
  induction l generalizing cap with
  | nil => simp [runLen]
  | cons x rest ih =>
    cases cap with
    | zero => simp [runLen]
    | succ c =>
      simp only [runLen, List.length_cons]
      split
      · have := ih c
        omega
      · omega

lemma take_runLen (value : ℕ) (l : List ℕ) (cap : ℕ) :
    l.take (runLen value l cap) =
      List.replicate (runLen value l cap) value := by
  induction l generalizing cap with
  | nil => simp [runLen]
  | cons x rest ih =>
    cases cap with
    | zero => simp [runLen]
    | succ c =>
      simp only [runLen]
      split
      · rename_i h
        subst h
        rw [Nat.add_comm, List.take_succ_cons, List.replicate_succ, ih]
      · simp

lemma runLen_replicate (value n cap : ℕ) :
    runLen value (List.replicate n value) cap = min n cap := by
  induction n generalizing cap with
  | zero =>
    cases cap <;> simp [runLen]
  | succ m ih =>
    cases cap with
    | zero => simp [runLen]
    | succ c =>
      rw [List.replicate_succ]
      simp only [runLen]
      simp only [if_true]
      rw [ih]
      omega

lemma runLen_replicate_append (value n cap : ℕ) (w : ℕ) (t : List ℕ)
    (hw : w ≠ value) :
    runLen value (List.replicate n value ++ w :: t) cap = min n cap := by
  induction n generalizing cap with
  | zero =>
    cases cap <;> simp [runLen, hw]
  | succ m ih =>
    cases cap with
    | zero => simp [runLen]
    | succ c =>
      rw [List.replicate_succ, List.cons_append]
      simp only [runLen]
      simp only [if_true]
      rw [ih]
      omega

lemma rle_encode_nil : rle_encode [] = [] := by
  rw [rle_encode]

lemma rle_decode_encode_aux :
    ∀ (n : ℕ) (B : List ℕ), B.length ≤ n → rle_decode (rle_encode B) = B := by
  intro n
  induction n with
  | zero =>
    intro B hB
    rw [List.length_eq_zero.1 (Nat.le_zero.1 hB), rle_encode_nil]
    rfl
  | succ n ih =>
    intro B hB
    cases B with
    | nil => rw [rle_encode_nil]; rfl
    | cons value rest =>
      rw [rle_encode_cons]
      simp only [rle_decode]
      rw [ih (rest.drop (runLen value rest 254))
        (by simp only [List.length_drop, List.length_cons] at hB ⊢; omega)]
      rw [Nat.add_comm 1 (runLen value rest 254), List.replicate_succ,
        List.cons_append, ← take_runLen value rest 254,
        List.take_append_drop]

lemma rle_encode_replicate (value n : ℕ) (h1 : 1 ≤ n) (h2 : n ≤ 255) :
    rle_encode (List.replicate n value) = [value, n] := by
  cases n with
  | zero => omega
  | succ m =>
    rw [List.replicate_succ, rle_encode_cons, runLen_replicate]
    rw [show m ⊓ 254 = m from by omega]
    rw [List.drop_replicate]
    rw [show m - m = 0 from by omega]
    rw [show List.replicate 0 value = [] from rfl, rle_encode_nil]
    rw [show 1 + m = m + 1 from by omega]

/-- C5: decoding the RLE encoding restores any byte sequence, and the
encoding of the empty sequence is empty. -/
theorem rle_decode_encode :
    (∀ B : List ℕ, rle_decode (rle_encode B) = B) ∧
      rle_encode ([] : List ℕ) = [] :=
  ⟨fun B => rle_decode_encode_aux B.length B le_rfl, rle_encode_nil⟩

/-- C7: rle_encode emits one (value, count) pair per maximal run, capped
at 255: a run of n identical bytes (n at most 255) followed by a different
byte encodes as the pair (value, n) before the rest, and 300 identical
bytes encode as exactly (value, 255, value, 45). -/
theorem rle_run_cap :
    (∀ (value n w : ℕ) (t : List ℕ), 1 ≤ n → n ≤ 255 → w ≠ value →
      rle_encode (List.replicate n value ++ w :: t) =
        value :: n :: rle_encode (w :: t)) ∧
    (∀ value : ℕ, rle_encode (List.replicate 300 value) =
      [value, 255, value, 45]) := by
  constructor
  · intro value n w t h1 h2 hw
    cases n with
    | zero => omega
    | succ m =>
      rw [List.replicate_succ, List.cons_append, rle_encode_cons,
        runLen_replicate_append value m 254 w t hw]
      rw [show m ⊓ 254 = m from by omega]
      rw [List.drop_left' (List.length_replicate m value)]
      rw [show 1 + m = m + 1 from by omega]
  · intro value
    rw [show (300 : ℕ) = 299 + 1 from rfl, List.replicate_succ,
      rle_encode_cons, runLen_replicate]
    rw [show (299 : ℕ) ⊓ 254 = 254 from by omega]
    rw [List.drop_replicate]
    rw [show (299 : ℕ) - 254 = 45 from by omega]
    rw [rle_encode_replicate value 45 (by omega) (by omega)]

/-- Witness for C7: a concrete run of two equal bytes followed by a
different byte. -/
theorem rle_run_cap_witness :
    rle_encode (List.replicate 2 1 ++ 0 :: []) =
      1 :: 2 :: rle_encode (0 :: []) :=
  rle_run_cap.1 1 2 0 [] (by decide) (by decide) (by decide)

lemma rle_invariants_aux :
    ∀ (n : ℕ) (B : List ℕ), B.length ≤ n →
      (rle_encode B).length % 2 = 0 ∧
      (∀ c ∈ rleCounts (rle_encode B), 1 ≤ c ∧ c ≤ 255) ∧
      (rleCounts (rle_encode B)).sum = B.length := by
  intro n
  induction n with
  | zero =>
    intro B hB
    rw [List.length_eq_zero.1 (Nat.le_zero.1 hB), rle_encode_nil]
    exact ⟨rfl, by simp [rleCounts], rfl⟩
  | succ n ih =>
    intro B hB
    cases B with
    | nil =>
      rw [rle_encode_nil]
      exact ⟨rfl, by simp [rleCounts], rfl⟩
    | cons value rest =>
      rw [rle_encode_cons]
      have hlen : (rest.drop (runLen value rest 254)).length ≤ n := by
        simp only [List.length_drop, List.length_cons] at hB ⊢
        omega
      obtain ⟨ihl, ihb, ihs⟩ := ih (rest.drop (runLen value rest 254)) hlen
      refine ⟨?_, ?_, ?_⟩
      · simp only [List.length_cons]
        omega
      · intro c hc
        simp only [rleCounts, List.mem_cons] at hc
        rcases hc with hc | hc
        · subst hc
          have := runLen_le_cap value rest 254
          omega
        · exact ihb c hc
      · simp only [rleCounts, List.sum_cons, ihs]
        simp only [List.length_drop, List.length_cons]
        have := runLen_le_length value rest 254
        omega

/-- C10: any RLE output has even length, every count byte lies between 1
and 255, and the count bytes sum to the input length. -/
theorem rle_invariants (B : List ℕ) :
    (rle_encode B).length % 2 = 0 ∧
    (∀ c ∈ rleCounts (rle_encode B), 1 ≤ c ∧ c ≤ 255) ∧
    (rleCounts (rle_encode B)).sum = B.length :=
  rle_invariants_aux B.length B le_rfl

/-- Witness for C10: the count-byte bound at the single run of a concrete
one-byte input. -/
theorem rle_invariants_witness : 1 ≤ 1 ∧ 1 ≤ 255 :=
  (rle_invariants [5]).2.1 1
    (by rw [show ([5] : List ℕ) = List.replicate 1 5 from rfl,
          rle_encode_replicate 5 1 (by omega) (by omega)]
        simp [rleCounts])

/-! ### Validator claim -/

/-- C3: the validation check truncates (90 - lat)/res and (lng + 180)/res
to grid indices, clamps them into [0, rows-1] and [0, cols-1], and
succeeds exactly when the grid cell at the clamped indices equals the
expected boolean; the clamped indices are always in range, so no indexing
error can occur. -/
theorem validate_check_spec (grid : ℕ → ℕ → Bool) (rows cols : ℕ)
    (res lat lng : ℚ) (expected : Bool) (hr : 0 < rows) (hc : 0 < cols) :
    (validate_grid.clampedRow rows res lat).toNat < rows ∧
    (validate_grid.clampedCol cols res lng).toNat < cols ∧
    (validate_grid.check grid rows cols res lat lng expected = true ↔
      grid (validate_grid.clampedRow rows res lat).toNat
        (validate_grid.clampedCol cols res lng).toNat = expected) := by
  refine ⟨?_, ?_, ?_⟩
  · have hle : validate_grid.clampedRow rows res lat ≤ (rows : ℤ) - 1 :=
      max_le (by omega) (min_le_left _ _)
    omega
  · have hle : validate_grid.clampedCol cols res lng ≤ (cols : ℤ) - 1 :=
      max_le (by omega) (min_le_left _ _)
    omega
  · unfold validate_grid.check
    exact beq_iff_eq

/-- Witness for C3: a concrete one-cell grid and coordinate. -/
theorem validate_check_spec_witness :
    (validate_grid.clampedRow 1 1 0).toNat < 1 ∧
    (validate_grid.clampedCol 1 1 0).toNat < 1 ∧
    (validate_grid.check (fun _ _ => false) 1 1 1 0 0 false = true ↔
      (fun _ _ => false : ℕ → ℕ → Bool)
        (validate_grid.clampedRow 1 1 0).toNat
        (validate_grid.clampedCol 1 1 0).toNat = false) :=
  validate_check_spec (fun _ _ => false) 1 1 1 0 0 false
    (by decide) (by decide)

/-! ### Default parameters claim -/

/-- C4 counterexample: the default arguments of generate_grid are not
rows=1800, cols=3600, res=0.1; already the default row count is 720. -/
theorem generate_grid_defaults_counterexample :
    generate_grid_defaults.1 = 720 ∧ generate_grid_defaults.1 ≠ 1800 := by
  constructor
  · rfl
  · decide

/-- C4 amended: the default arguments of generate_grid and validate_grid
are rows=720, cols=1440, res=0.25, which satisfy rows*res = 180 and
cols*res = 360; main passes rows=1800, cols=3600, res=0.1 explicitly,
which also satisfy full-sphere coverage. -/
theorem pipeline_params :
    generate_grid_defaults = (720, 1440, (1/4 : ℚ)) ∧
    (720 : ℚ) * (1/4) = 180 ∧ (1440 : ℚ) * (1/4) = 360 ∧
    main_params = (1800, 3600, (1/10 : ℚ)) ∧
    (1800 : ℚ) * (1/10) = 180 ∧ (3600 : ℚ) * (1/10) = 360 ∧
    validate_grid_default_res = 1/4 :=
  ⟨rfl, by norm_num, by norm_num, rfl, by norm_num, by norm_num, rfl⟩

/-! ### All-water scenario claim -/

/-- C8: a fully-water grid of 16 cells bitpacks to two zero bytes, which
RLE-encode to [0x00, 0x02], whose standard base64 encoding is "AAI=". -/
theorem scenario_all_water :
    bitpack (List.replicate 4 (List.replicate 4 false)) = [0, 0] ∧
    rle_encode [0, 0] = [0, 2] ∧
    base64Encode [0, 2] = "AAI=" := by
  refine ⟨by decide, ?_, by decide⟩
  rw [show ([0, 0] : List ℕ) = List.replicate 2 0 from rfl,
    rle_encode_replicate 0 2 (by omega) (by omega)]

/-! ### Empty geometry claim -/

lemma cellLand_empty_union {G : Type} (containsG : G → ℚ → ℚ → Bool)
    (row col : ℕ) (res : ℚ) :
    cellLand (union_contains containsG []) row col res = false := by
  cases h : cellLand (union_contains containsG []) row col res
  · rfl
  · obtain ⟨yo, _, xo, _, hcon⟩ := (cellLand_iff _ row col res).1 h
    simp [union_contains] at hcon

/-- C9 counterexample: with zero usable geometries (one null entry, none
kept) the loader raises nothing and rasterization still runs, producing an
all-water grid instead of failing. -/
theorem empty_geometry_counterexample :
    load_land_geoms ([none] : List (Option ℕ)) = [] ∧
    grid_from_world (fun (_ : ℕ) _ _ => true) [none] 2 2 90 =
      [[false, false], [false, false]] := by
  constructor
  · rfl
  · decide

/-- C9 amended: the code contains no emptiness check and no
EmptyGeometryError; when the dataset yields zero usable geometries the
pipeline proceeds and rasterizes the empty merged geometry, producing the
all-water grid. -/
theorem empty_geometry_proceeds {G : Type} (containsG : G → ℚ → ℚ → Bool)
    (world : List (Option G)) (h : load_land_geoms world = [])
    (rows cols : ℕ) (res : ℚ) :
    grid_from_world containsG world rows cols res =
      List.replicate rows (List.replicate cols false) := by
  unfold grid_from_world
  rw [h]
  unfold generate_grid
  have hinner : ∀ row : ℕ,
      (List.range cols).map
        (fun col => cellLand (union_contains containsG []) row col res) =
        List.replicate cols false := by
    intro row
    rw [List.map_congr_left
      (fun a _ => cellLand_empty_union containsG row a res)]
    simp [List.map_const']
  rw [List.map_congr_left (fun row _ => hinner row)]
  simp [List.map_const']

/-- Witness for C9 (amended): a concrete dataset with one null geometry. -/
theorem empty_geometry_proceeds_witness :
    grid_from_world (fun (_ : ℕ) _ _ => true) [none] 1 1 1 =
      List.replicate 1 (List.replicate 1 false) :=
  empty_geometry_proceeds (fun (_ : ℕ) _ _ => true) [none] (by rfl) 1 1 1
